import Mathlib

/-!
Verification of the quantity-normalization and aggregation engine of the
product-inventory dashboard (`src/App.jsx`).  The JavaScript core is shallowly
embedded: every function below is a direct translation of the corresponding
JavaScript source.  Strings are Lean strings (lists of Unicode scalar values),
JavaScript numbers arising here are non-negative integers and are modelled as
`Nat`, and the insertion-ordered JavaScript object used for grouping is
modelled as an association list in insertion order.
-/

namespace Dashboard

/-- Canonicalisation used by a case-insensitive (`i`-flag, no `u`-flag)
JavaScript regular expression: ASCII letters are upper-cased; the non-ASCII
letters appearing in the unit vocabulary (ç, ğ) are upper-cased to their
non-ASCII upper-case forms; a non-ASCII character whose upper-case form would
be ASCII (such as ı, whose upper case is I) is left unchanged, per the
ECMAScript Canonicalize algorithm. -/
def canonChar (c : Char) : Char :=
  if c = 'ç' then 'Ç'
  else if c = 'ğ' then 'Ğ'
  else c.toUpper

/-- Lower-casing of one character as performed by JavaScript
`String.prototype.toLowerCase` on the alphabet this application uses:
ASCII letters and the Turkish letters Ç, Ğ, Ö, Ş, Ü map to their lower-case
forms, İ (U+0130) maps to the two-character sequence i followed by combining
dot above (U+0307), and all other characters are unchanged. -/
def jsLowerChar (c : Char) : List Char :=
  if c = 'Ç' then ['ç']
  else if c = 'Ğ' then ['ğ']
  else if c = 'Ö' then ['ö']
  else if c = 'Ş' then ['ş']
  else if c = 'Ü' then ['ü']
  else if c = 'İ' then ['i', Char.ofNat 0x307]
  else [c.toLower]

/-- JavaScript `String.prototype.toLowerCase` over the alphabet in use. -/
def jsToLower (s : String) : String :=
  String.mk (s.data.flatMap jsLowerChar)

/-- Does the list start with the given prefix (exact character equality)? -/
def startsWith : List Char → List Char → Bool
  | _, [] => true
  | [], _ :: _ => false
  | c :: cs, n :: ns => c == n && startsWith cs ns

/-- JavaScript `String.prototype.includes`: does `hay` contain `needle` as a
contiguous substring?  The empty needle is contained in every string. -/
def containsSub : List Char → List Char → Bool
  | [], needle => needle.isEmpty
  | c :: t, needle => startsWith (c :: t) needle || containsSub t needle

/-- The decimal digit character for a value below ten. -/
def digitChar (n : Nat) : Char := Char.ofNat (48 + n)

/-- Decimal digits of `n`, least significant first, with explicit fuel so the
definition is structural (the fuel `n + 1` always suffices). -/
def toDigitsAux : Nat → Nat → List Char
  | 0, _ => []
  | fuel + 1, n =>
    if n < 10 then [digitChar n]
    else digitChar (n % 10) :: toDigitsAux fuel (n / 10)

/-- Decimal rendering of a natural number, as JavaScript template
interpolation `${combinedQuantity}` renders an integer. -/
def natToStr (n : Nat) : String :=
  String.mk (toDigitsAux (n + 1) n).reverse

/-- Value of a string of decimal digits, most significant first; this is what
JavaScript `parseInt(num, 10)` returns on the digit-only strings produced by
the regular expression match. -/
def digitsVal (l : List Char) : Nat :=
  l.foldl (fun a c => a * 10 + (c.toNat - 48)) 0

/-- Is the character an ASCII decimal digit?  The character class `\d` of a
JavaScript regular expression without the `u` flag matches exactly `[0-9]`. -/
def isDigitChar (c : Char) : Bool :=
  48 ≤ c.toNat && c.toNat ≤ 57

/-- The maximal runs of decimal digits of a character list, left to right:
the successive matches of the JavaScript global regular expression `/\d+/g`. -/
def digitRuns : List Char → List (List Char)
  | [] => []
  | c :: cs =>
    if isDigitChar c then
      match cs with
      | [] => [[c]]
      | c₂ :: _ =>
        if isDigitChar c₂ then
          match digitRuns cs with
          | g :: gs => (c :: g) :: gs
          | [] => [[c]]
        else [c] :: digitRuns cs
    else digitRuns cs

/-- `parseQuantity` from `App.jsx` (the spec&#39;s `parseMagnitude`): sum of the
values of all maximal decimal-digit runs of the string, `0` when there are
none.  Translates `String(quantityStr).match(/\d+/g)` followed by a
`reduce` summing `parseInt(num, 10)` over the matches. -/
def parseQuantity (s : String) : Nat :=
  ((digitRuns s.data).map digitsVal).sum

/-- The fixed unit vocabulary, in the alternation order of the source regular
expression `/(?:kg|kasa|adet|paket|demet|bağ|çubuk|tane|çuval|salkım)/gi`. -/
def unitTokens : List String :=
  ["kg", "kasa", "adet", "paket", "demet", "bağ", "çubuk", "tane", "çuval", "salkım"]

/-- Character-by-character case-insensitive match of a token pattern against a
text fragment, per the canonicalisation `canonChar`. -/
def caseMatch : List Char → List Char → Bool
  | [], [] => true
  | p :: ps, c :: cs => canonChar p == canonChar c && caseMatch ps cs
  | _, _ => false

/-- Try to match one token at the start of the input; on success return the
matched input characters (in their original casing). -/
def matchTokenAt : List Char → List Char → Option (List Char)
  | _, [] => some []
  | [], _ :: _ => none
  | c :: cs, p :: ps =>
    if canonChar p == canonChar c then
      (matchTokenAt cs ps).map (fun m => c :: m)
    else none

/-- Try the tokens in alternation order at the current position. -/
def tryTokens : List Char → List String → Option (List Char)
  | _, [] => none
  | l, t :: ts =>
    match matchTokenAt l t.data with
    | some m => some m
    | none => tryTokens l ts

/-- Scan left to right for the first position where some token matches: the
first match of the global case-insensitive alternation. -/
def findUnit : List Char → Option (List Char)
  | [] => none
  | c :: cs =>
    match tryTokens (c :: cs) unitTokens with
    | some m => some m
    | none => findUnit cs

/-- `getUnit` from `App.jsx` (the spec&#39;s `parseUnit`): the first
case-insensitive occurrence of a vocabulary token, in its matched casing,
defaulting to `"adet"`. -/
def getUnit (s : String) : String :=
  match findUnit s.data with
  | some m => String.mk m
  | none => "adet"

/-- A normalized product record, as built in the CSV `complete` callback of
`App.jsx` (the `uniqueKey` field, used only as a React render key, is not
modelled). -/
structure Rec where
  id : Nat
  name : String
  quantity : String
  originalQuantity : String
  date : String
deriving DecidableEq, Repr

/-- Record constructor mirroring normalization: `originalQuantity` starts
equal to `quantity` and the batch date is the fixed load date. -/
def mkRec (i : Nat) (name qty : String) : Rec :=
  ⟨i, name, qty, qty, "2025-08-26"⟩

/-- The grouping key `` `${product.name}-${product.quantity}` `` computed from
a record&#39;s current (original, pre-merge) quantity text. -/
def keyOf (r : Rec) : String :=
  r.name ++ "-" ++ r.quantity

/-- One merge of the aggregation fold: the accumulator&#39;s quantity becomes the
sum of the parsed quantities rendered in decimal, followed by a space and the
unit of the incoming record&#39;s quantity text. -/
def merge2 (acc p : Rec) : Rec :=
  { acc with
    quantity := natToStr (parseQuantity acc.quantity + parseQuantity p.quantity)
      ++ " " ++ getUnit p.quantity,
    originalQuantity := natToStr (parseQuantity acc.quantity + parseQuantity p.quantity)
      ++ " " ++ getUnit p.quantity }

/-- One step of the `filtered.forEach` grouping loop of `App.jsx`: if the key
is already present, merge into the existing entry in place; otherwise append
a copy of the record at the end (JavaScript objects preserve insertion order
for these keys). -/
def mergeStep (groups : List (String × Rec)) (p : Rec) : List (String × Rec) :=
  if groups.any (fun kr => kr.fst == keyOf p) then
    groups.map (fun kr => if kr.fst == keyOf p then (kr.fst, merge2 kr.snd p) else kr)
  else groups ++ [(keyOf p, p)]

/-- The grouping/merging stage (`groupedProducts` followed by
`Object.values`). -/
def aggregate (rs : List Rec) : List Rec :=
  (rs.foldl mergeStep []).map Prod.snd

/-- One step of first-seen-order deduplication: append the key unless it has
been seen. -/
def dedupStep (acc : List String) (k : String) : List String :=
  if k ∈ acc then acc else acc ++ [k]

/-- First-seen-order deduplication of a list of keys: the insertion order of
the keys of the grouping object. -/
def dedupFS (l : List String) : List String :=
  l.foldl dedupStep []

/-- The merged record of one group: the left fold of `merge2` over the records
carrying key `k`, in encounter order, started at the first such record.  The
value on an absent key is an arbitrary junk record and is never used. -/
def groupRec (k : String) (rs : List Rec) : Rec :=
  match rs.filter (fun r => keyOf r == k) with
  | [] => ⟨0, "", "", "", ""⟩
  | m :: ms => ms.foldl merge2 m

/-- A duplicate-annotated record, as produced by the name-count pass of
`App.jsx`. -/
structure ARec where
  id : Nat
  name : String
  quantity : String
  originalQuantity : String
  date : String
  duplicateCount : Nat
  isDuplicate : Bool
deriving DecidableEq, Repr

/-- Annotation of one record against the whole aggregated list: the
`nameCounts` object counts every aggregated record per name. -/
def annRec (l : List Rec) (p : Rec) : ARec :=
  ⟨p.id, p.name, p.quantity, p.originalQuantity, p.date,
    l.countP (fun q => q.name == p.name),
    decide (l.countP (fun q => q.name == p.name) > 1)⟩

/-- The duplicate-annotation stage of `App.jsx`. -/
def annotate (l : List Rec) : List ARec :=
  l.map (annRec l)

/-- A raw CSV row: the four header spellings the normalizer consults.  A
missing column is `none`; JavaScript `||` also skips an empty string. -/
structure RawRow where
  urun : Option String
  urunCap : Option String
  miktar : Option String
  miktarCap : Option String
deriving DecidableEq, Repr

/-- JavaScript `a || b` on an optional string: falsy (absent or empty)
falls through to the alternative. -/
def jsOrElse (v : Option String) (alt : String) : String :=
  match v with
  | some s => if s = "" then alt else s
  | none => alt

/-- Resolution `row[&#39;ürün&#39;] || row[&#39;Ürün&#39;] || &#39;&#39;` of the name column. -/
def resolveName (row : RawRow) : String :=
  jsOrElse row.urun (jsOrElse row.urunCap "")

/-- Resolution `row[&#39;miktar&#39;] || row[&#39;Miktar&#39;] || &#39;&#39;` of the quantity column. -/
def resolveQty (row : RawRow) : String :=
  jsOrElse row.miktar (jsOrElse row.miktarCap "")

/-- JavaScript `String.prototype.trim` on the whitespace characters in use:
strip whitespace from both ends. -/
def jsTrim (s : String) : String :=
  String.mk (((s.data.dropWhile Char.isWhitespace).reverse.dropWhile Char.isWhitespace).reverse)

/-- The record built from the row at 0-based index `i` of the parsed CSV:
`id` is `index + 1`, both fields are trimmed, the date is the fixed load
date. -/
def buildRec (i : Nat) (row : RawRow) : Rec :=
  ⟨i + 1, jsTrim (resolveName row), jsTrim (resolveQty row), jsTrim (resolveQty row), "2025-08-26"⟩

/-- `results.data.map((row, index) => ...)`: build a record per row, indices
increasing from the given start. -/
def mapIdx : Nat → List RawRow → List Rec
  | _, [] => []
  | i, row :: rows => buildRec i row :: mapIdx (i + 1) rows

/-- The normalizer&#39;s keep condition: both trimmed fields are truthy
(non-empty). -/
def keepRec (p : Rec) : Bool :=
  p.name != "" && p.quantity != ""

/-- `processedProducts` of `App.jsx`: map rows to records with 1-based ids in
input order, then drop records with an empty name or quantity. -/
def processedProducts (rows : List RawRow) : List Rec :=
  (mapIdx 0 rows).filter keepRec

/-- Primary collation weight of one character.  Modelled from the spec: the
Turkish alphabet ordering (a b c ç d e f g ğ h ı i j k l m n o ö p q r s ş t
u ü v w x y z) used by `localeCompare(..., &#39;tr&#39;)`; characters outside the
alphabet are ordered after it by code point. -/
def turkishWeight (c : Char) : Nat :=
  if c = 'a' then 10 else if c = 'b' then 20 else if c = 'c' then 30
  else if c = 'ç' then 40 else if c = 'd' then 50 else if c = 'e' then 60
  else if c = 'f' then 70 else if c = 'g' then 80 else if c = 'ğ' then 90
  else if c = 'h' then 100 else if c = 'ı' then 110 else if c = 'i' then 120
  else if c = 'j' then 130 else if c = 'k' then 140 else if c = 'l' then 150
  else if c = 'm' then 160 else if c = 'n' then 170 else if c = 'o' then 180
  else if c = 'ö' then 190 else if c = 'p' then 200 else if c = 'q' then 210
  else if c = 'r' then 220 else if c = 's' then 230 else if c = 'ş' then 240
  else if c = 't' then 250 else if c = 'u' then 260 else if c = 'ü' then 270
  else if c = 'v' then 280 else if c = 'w' then 290 else if c = 'x' then 300
  else if c = 'y' then 310 else if c = 'z' then 320
  else 1000 + c.toNat

/-- Collation key of a string: weights of its characters. -/
def collKey (s : String) : List Nat :=
  s.data.map turkishWeight

/-- Lexicographic three-way comparison of collation keys, returning a negative,
zero or positive integer. -/
def cmpKeys : List Nat → List Nat → Int
  | [], [] => 0
  | [], _ :: _ => -1
  | _ :: _, [] => 1
  | x :: xs, y :: ys =>
    if x < y then -1 else if y < x then 1 else cmpKeys xs ys

/-- Modelled from the spec: `a.localeCompare(b, &#39;tr&#39;)`, the Turkish-locale
three-way string comparison (primary collation weights; the host ICU
collator is not part of the repository). -/
def localeCmp (a b : String) : Int :=
  cmpKeys (collKey a) (collKey b)

/-- Stable insertion of `x` into `l`: `x` goes immediately before the first
element it compares strictly below, hence after every tie. -/
def insertSorted (c : α → α → Int) (x : α) : List α → List α
  | [] => [x]
  | y :: ys => if c x y < 0 then x :: y :: ys else y :: insertSorted c x ys

/-- A stable sort by a three-way comparator, as `Array.prototype.sort` (stable
per the ECMAScript specification): elements are inserted left to right, each
after all its ties. -/
def stableSortBy (c : α → α → Int) (l : List α) : List α :=
  l.foldl (fun acc x => insertSorted c x acc) []

/-- The sort comparator of `App.jsx`: name comparison is Turkish-locale
comparison of the lower-cased names, quantity comparison is the difference of
parsed quantities, and `desc` negates the comparison. -/
def recCompare (sortColumn sortBy : String) (a b : ARec) : Int :=
  let comparison : Int :=
    if sortColumn = "name" then localeCmp (jsToLower a.name) (jsToLower b.name)
    else if sortColumn = "quantity" then
      (parseQuantity a.quantity : Int) - (parseQuantity b.quantity : Int)
    else 0
  if sortBy = "desc" then -comparison else comparison

/-- The sorting stage: sort a copy when a direction is active, otherwise
return the list unchanged. -/
def sortStage (sortColumn sortBy : String) (l : List ARec) : List ARec :=
  if sortBy != "none" then stableSortBy (recCompare sortColumn sortBy) l else l

/-- The search predicate: the lower-cased name contains the lower-cased search
term as a substring. -/
def nameMatches (name s : String) : Bool :=
  containsSub (jsToLower name).data (jsToLower s).data

/-- The text-filter stage applied to normalized records (`if (searchTerm)`
guards the filter). -/
def textFilterRec (s : String) (rs : List Rec) : List Rec :=
  if s != "" then rs.filter (fun p => nameMatches p.name s) else rs

/-- The same text filter applied to annotated records. -/
def textFilterA (s : String) (l : List ARec) : List ARec :=
  if s != "" then l.filter (fun p => nameMatches p.name s) else l

/-- The full `filteredProducts` pipeline of `App.jsx`: date filter, text
filter, aggregation, duplicate annotation, sort. -/
def filteredPipeline (products : List Rec) (searchTerm sortBy sortColumn selectedDate : String) :
    List ARec :=
  sortStage sortColumn sortBy
    (annotate (aggregate (textFilterRec searchTerm
      (products.filter (fun p => p.date == selectedDate)))))

/-- Total parsed magnitude of a record list. -/
def totalMag (rs : List Rec) : Nat :=
  (rs.map (fun r => parseQuantity r.quantity)).sum

/-- Boundary condition: the list is empty or its last character is not a
digit. -/
def lastOk (a : List Char) : Bool :=
  match a.getLast? with
  | none => true
  | some c => !isDigitChar c

/-- Boundary condition: the list is empty or its first character is not a
digit. -/
def headOk (b : List Char) : Bool :=
  match b.head? with
  | none => true
  | some c => !isDigitChar c

theorem canonChar_digit (c : Char) (h : isDigitChar c = true) : canonChar c = c := by
  simp [isDigitChar] at h
  obtain ⟨h1, h2⟩ := h
  have hc1 : c ≠ 'ç' := by
    intro e
    subst e
    exact absurd h2 (by decide)
  have hc2 : c ≠ 'ğ' := by
    intro e
    subst e
    exact absurd h2 (by decide)
  have hup : c.toUpper = c := by
    unfold Char.toUpper
    rw [if_neg]
    rintro ⟨ha, hb⟩
    omega
  simp [canonChar, hc1, hc2, hup]

theorem digitChar_isDigit (n : Nat) (h : n < 10) : isDigitChar (digitChar n) = true := by
  interval_cases n <;> decide

theorem digitChar_toNat (n : Nat) (h : n < 10) : (digitChar n).toNat = 48 + n := by
  interval_cases n <;> decide

theorem digitsVal_append (l : List Char) (c : Char) :
    digitsVal (l ++ [c]) = digitsVal l * 10 + (c.toNat - 48) := by
  simp [digitsVal, List.foldl_append]

theorem toDigitsAux_spec : ∀ (fuel n : Nat), n < fuel →
    (∀ c ∈ toDigitsAux fuel n, isDigitChar c = true) ∧
    toDigitsAux fuel n ≠ [] ∧
    digitsVal (toDigitsAux fuel n).reverse = n := by
  intro fuel
  induction fuel with
  | zero => intro n h; omega
  | succ fuel ih =>
    intro n h
    by_cases h10 : n < 10
    · refine ⟨?_, ?_, ?_⟩
      · intro c hc
        simp [toDigitsAux, h10] at hc
        subst hc
        exact digitChar_isDigit n h10
      · simp [toDigitsAux, h10]
      · simp [toDigitsAux, h10, digitsVal, digitChar_toNat n h10]
    · have hdiv : n / 10 < fuel := by omega
      obtain ⟨ihd, ihne, ihv⟩ := ih (n / 10) hdiv
      refine ⟨?_, ?_, ?_⟩
      · intro c hc
        simp [toDigitsAux, h10] at hc
        rcases hc with hc | hc
        · subst hc
          exact digitChar_isDigit (n % 10) (by omega)
        · exact ihd c hc
      · simp [toDigitsAux, h10]
      · have : (toDigitsAux (fuel + 1) n).reverse
            = (toDigitsAux fuel (n / 10)).reverse ++ [digitChar (n % 10)] := by
          simp [toDigitsAux, h10]
        rw [this, digitsVal_append, ihv, digitChar_toNat (n % 10) (by omega)]
        omega

theorem natToStr_all_digits (n : Nat) : ∀ c ∈ (natToStr n).data, isDigitChar c = true := by
  intro c hc
  have h := (toDigitsAux_spec (n + 1) n (by omega)).1
  simp only [natToStr, List.mem_reverse] at hc
  exact h c hc

theorem natToStr_ne_nil (n : Nat) : (natToStr n).data ≠ [] := by
  have h := (toDigitsAux_spec (n + 1) n (by omega)).2.1
  simp only [natToStr]
  simpa using h

theorem digitsVal_natToStr (n : Nat) : digitsVal (natToStr n).data = n :=
  (toDigitsAux_spec (n + 1) n (by omega)).2.2

theorem digitRuns_nil (l : List Char) (h : ∀ c ∈ l, isDigitChar c = false) :
    digitRuns l = [] := by
  induction l with
  | nil => rfl
  | cons c cs ih =>
    have hc : isDigitChar c = false := h c (by simp)
    have := ih (fun x hx => h x (by simp [hx]))
    simp [digitRuns, hc, this]

theorem digitRuns_head : ∀ (cs : List Char) (c : Char), isDigitChar c = true →
    ∃ t gs, digitRuns (c :: cs) = (c :: t) :: gs := by
  intro cs
  induction cs with
  | nil =>
    intro c h
    exact ⟨[], [], by simp [digitRuns, h]⟩
  | cons c₂ cs' ih =>
    intro c h
    by_cases h2 : isDigitChar c₂ = true
    · obtain ⟨t, gs, he⟩ := ih c₂ h2
      refine ⟨c₂ :: t, gs, ?_⟩
      rw [digitRuns]
      simp only [h, h2, if_true]
      rw [he]
    · rw [Bool.not_eq_true] at h2
      refine ⟨[], digitRuns (c₂ :: cs'), ?_⟩
      rw [digitRuns]
      simp only [h, h2, if_true]
      simp

theorem digitRuns_run : ∀ (r : List Char), r ≠ [] → (∀ c ∈ r, isDigitChar c = true) →
    ∀ b, headOk b = true → digitRuns (r ++ b) = r :: digitRuns b := by
  intro r
  induction r with
  | nil => intro h; exact absurd rfl h
  | cons c r' ih =>
    intro _ hdig b hb
    have hc : isDigitChar c = true := hdig c (by simp)
    cases r' with
    | nil =>
      cases b with
      | nil => simp [digitRuns, hc]
      | cons c₂ b' =>
        have h2 : isDigitChar c₂ = false := by
          simp [headOk] at hb
          exact hb
        simp [digitRuns, hc, h2]
    | cons c₂ r'' =>
      have h2 : isDigitChar c₂ = true := hdig c₂ (by simp)
      have hrec := ih (by simp) (fun x hx => hdig x (by simp [hx])) b hb
      simp only [List.cons_append] at hrec ⊢
      rw [digitRuns]
      simp only [hc, h2, if_true]
      rw [hrec]

theorem digitRuns_append : ∀ (a : List Char), lastOk a = true →
    ∀ b, digitRuns (a ++ b) = digitRuns a ++ digitRuns b := by
  intro a
  induction a with
  | nil => intro _ b; rfl
  | cons c a' ih =>
    intro hlast b
    cases a' with
    | nil =>
      have hc : isDigitChar c = false := by
        simp [lastOk] at hlast
        exact hlast
      simp [digitRuns, hc]
    | cons c₂ a'' =>
      have hlast' : lastOk (c₂ :: a'') = true := by
        simpa [lastOk, List.getLast?] using hlast
      by_cases hc : isDigitChar c = true
      · by_cases h2 : isDigitChar c₂ = true
        · obtain ⟨t, gs, he⟩ := digitRuns_head a'' c₂ h2
          have hrec := ih hlast' b
          rw [he] at hrec
          simp only [List.cons_append] at hrec ⊢
          rw [digitRuns]
          simp only [hc, h2, if_true]
          rw [hrec]
          rw [digitRuns]
          simp only [hc, h2, if_true]
          rw [he]
          simp
        · rw [Bool.not_eq_true] at h2
          have hrec := ih hlast' b
          simp only [List.cons_append] at hrec ⊢
          rw [digitRuns]
          simp only [hc, h2, if_true]
          rw [hrec]
          rw [digitRuns]
          simp only [hc, h2, if_true]
          simp
      · rw [Bool.not_eq_true] at hc
        have hrec := ih hlast' b
        simp only [List.cons_append] at hrec ⊢
        rw [digitRuns]
        simp only [hc]
        rw [hrec]
        rw [digitRuns]
        simp only [hc]
        simp

theorem parseQuantity_data (s : String) :
    parseQuantity s = ((digitRuns s.data).map digitsVal).sum := rfl

theorem parseQuantity_split (a r b : List Char) (ha : lastOk a = true) (hr : r ≠ [])
    (hrd : ∀ c ∈ r, isDigitChar c = true) (hb : headOk b = true) :
    parseQuantity (String.mk (a ++ r ++ b))
      = parseQuantity (String.mk a) + digitsVal r + parseQuantity (String.mk b) := by
  have h1 := digitRuns_append a ha (r ++ b)
  have h2 := digitRuns_run r hr hrd b hb
  simp only [parseQuantity]
  show ((digitRuns (a ++ r ++ b)).map digitsVal).sum
    = ((digitRuns a).map digitsVal).sum + digitsVal r + ((digitRuns b).map digitsVal).sum
  rw [List.append_assoc, h1, h2]
  simp [Nat.add_assoc]

theorem parseQuantity_noDigits (s : String) (h : ∀ c ∈ s.data, isDigitChar c = false) :
    parseQuantity s = 0 := by
  rw [parseQuantity_data, digitRuns_nil s.data h]
  rfl

@[simp] theorem caseMatch_nil_cons (c : Char) (m : List Char) : caseMatch [] (c :: m) = false := rfl

@[simp] theorem caseMatch_cons_nil (p : Char) (ps : List Char) : caseMatch (p :: ps) [] = false := rfl

@[simp] theorem matchTokenAt_nil_tok (l : List Char) : matchTokenAt l [] = some [] := by
  cases l <;> rfl

theorem matchTokenAt_sound : ∀ (t l m : List Char), matchTokenAt l t = some m →
    caseMatch t m = true ∧ ∃ suf, l = m ++ suf := by
  intro t
  induction t with
  | nil =>
    intro l m h
    rw [matchTokenAt] at h
    obtain rfl : ([] : List Char) = m := Option.some.inj h
    exact ⟨rfl, l, rfl⟩
  | cons p ps ih =>
    intro l m h
    cases l with
    | nil => exact absurd h (by rw [matchTokenAt]; simp)
    | cons c cs =>
      rw [matchTokenAt] at h
      by_cases hcc : (canonChar p == canonChar c) = true
      · rw [if_pos hcc] at h
        rw [Option.map_eq_some'] at h
        obtain ⟨m', hm', rfl⟩ := h
        obtain ⟨hcm, suf, hsuf⟩ := ih cs m' hm'
        refine ⟨?_, suf, by rw [hsuf]; rfl⟩
        rw [caseMatch]
        simp [hcc, hcm]
      · rw [if_neg hcc] at h
        exact absurd h (by simp)

theorem matchTokenAt_complete : ∀ (t m suf : List Char), caseMatch t m = true →
    matchTokenAt (m ++ suf) t = some m := by
  intro t
  induction t with
  | nil =>
    intro m suf h
    cases m with
    | nil => simp
    | cons c m' => exact absurd h (by simp)
  | cons p ps ih =>
    intro m suf h
    cases m with
    | nil => exact absurd h (by simp)
    | cons c m' =>
      rw [caseMatch, Bool.and_eq_true] at h
      obtain ⟨hcc, hcm⟩ := h
      show matchTokenAt (c :: (m' ++ suf)) (p :: ps) = some (c :: m')
      rw [matchTokenAt, if_pos hcc, ih m' suf hcm]
      rfl

theorem tryTokens_sound : ∀ (ts : List String) (l m : List Char), tryTokens l ts = some m →
    ∃ t ∈ ts, caseMatch t.data m = true ∧ ∃ suf, l = m ++ suf := by
  intro ts
  induction ts with
  | nil => intro l m h; exact absurd h (by rw [tryTokens]; simp)
  | cons t ts' ih =>
    intro l m h
    rw [tryTokens] at h
    cases hmt : matchTokenAt l t.data with
    | some m₀ =>
      rw [hmt] at h
      have hm : m₀ = m := Option.some.inj h
      subst hm
      obtain ⟨hcm, suf, hsuf⟩ := matchTokenAt_sound t.data l m₀ hmt
      exact ⟨t, by simp, hcm, suf, hsuf⟩
    | none =>
      rw [hmt] at h
      obtain ⟨t', ht', rest⟩ := ih l m h
      exact ⟨t', by simp [ht'], rest⟩

theorem tryTokens_none : ∀ (ts : List String) (l : List Char), tryTokens l ts = none →
    ∀ t ∈ ts, ∀ m suf, l = m ++ suf → caseMatch t.data m = false := by
  intro ts
  induction ts with
  | nil => intro l _ t ht; exact absurd ht (by simp)
  | cons t ts' ih =>
    intro l h t₀ ht₀ m suf hl
    rw [tryTokens] at h
    cases hmt : matchTokenAt l t.data with
    | some m₀ => rw [hmt] at h; exact absurd h (by simp)
    | none =>
      rw [hmt] at h
      rcases List.mem_cons.mp ht₀ with rfl | ht₀'
      · by_contra hcm
        rw [Bool.not_eq_false] at hcm
        rw [hl] at hmt
        rw [matchTokenAt_complete t₀.data m suf hcm] at hmt
        exact absurd hmt (by simp)
      · exact ih l h t₀ ht₀' m suf hl

theorem findUnit_sound : ∀ (l m : List Char), findUnit l = some m →
    ∃ pre suf tok, l = pre ++ m ++ suf ∧ tok ∈ unitTokens ∧ caseMatch tok.data m = true ∧
      ∀ pre₂ m₂ suf₂ (tok₂ : String), l = pre₂ ++ m₂ ++ suf₂ → tok₂ ∈ unitTokens →
        caseMatch tok₂.data m₂ = true → pre.length ≤ pre₂.length := by
  intro l
  induction l with
  | nil => intro m h; exact absurd h (by rw [findUnit]; simp)
  | cons c cs ih =>
    intro m h
    rw [findUnit] at h
    cases htry : tryTokens (c :: cs) unitTokens with
    | some m₀ =>
      rw [htry] at h
      have hm : m₀ = m := Option.some.inj h
      subst hm
      obtain ⟨tok, htok, hcm, suf, hsuf⟩ := tryTokens_sound unitTokens (c :: cs) m₀ htry
      exact ⟨[], suf, tok, by simpa using hsuf, htok, hcm, fun _ _ _ _ _ _ _ => Nat.zero_le _⟩
    | none =>
      rw [htry] at h
      obtain ⟨pre, suf, tok, heq, htok, hcm, hmin⟩ := ih m h
      refine ⟨c :: pre, suf, tok, by simp [heq], htok, hcm, ?_⟩
      intro pre₂ m₂ suf₂ tok₂ heq₂ htok₂ hcm₂
      cases pre₂ with
      | nil =>
        simp only [List.nil_append] at heq₂
        exact absurd (tryTokens_none unitTokens (c :: cs) htry tok₂ htok₂ m₂ suf₂ heq₂)
          (by simp [hcm₂])
      | cons c₂ pre₂' =>
        simp only [List.cons_append, List.cons.injEq] at heq₂
        have := hmin pre₂' m₂ suf₂ tok₂ heq₂.2 htok₂ hcm₂
        simpa using this

theorem findUnit_none : ∀ (l : List Char), findUnit l = none →
    ∀ pre m suf (tok : String), l = pre ++ m ++ suf → tok ∈ unitTokens →
      caseMatch tok.data m = false := by
  intro l
  induction l with
  | nil =>
    intro _ pre m suf tok heq htok
    have hm : m = [] := by
      have := heq.symm
      rw [List.append_assoc] at this
      rcases List.append_eq_nil.mp this with ⟨-, h2⟩
      exact (List.append_eq_nil.mp h2).1
    subst hm
    fin_cases htok <;> decide
  | cons c cs ih =>
    intro h pre m suf tok heq htok
    rw [findUnit] at h
    cases htry : tryTokens (c :: cs) unitTokens with
    | some m₀ => rw [htry] at h; exact absurd h (by simp)
    | none =>
      rw [htry] at h
      cases pre with
      | nil =>
        simp only [List.nil_append] at heq
        exact tryTokens_none unitTokens (c :: cs) htry tok htok m suf heq
      | cons c₂ pre' =>
        simp only [List.cons_append, List.cons.injEq] at heq
        exact ih h pre' m suf tok heq.2 htok

theorem unitTokens_nodigit : ∀ tok ∈ unitTokens, ∀ p ∈ tok.data,
    isDigitChar (canonChar p) = false := by
  intro tok htok
  fin_cases htok <;> decide

theorem caseMatch_nodigit : ∀ (t m : List Char),
    (∀ p ∈ t, isDigitChar (canonChar p) = false) → caseMatch t m = true →
    ∀ c ∈ m, isDigitChar c = false := by
  intro t
  induction t with
  | nil =>
    intro m _ h c hc
    cases m with
    | nil => exact absurd hc (by simp)
    | cons c₀ m' => exact absurd h (by simp)
  | cons p ps ih =>
    intro m hp h c hc
    cases m with
    | nil => exact absurd h (by simp)
    | cons c₀ m' =>
      rw [caseMatch, Bool.and_eq_true] at h
      obtain ⟨hcc, hcm⟩ := h
      rcases List.mem_cons.mp hc with rfl | hc'
      · by_contra hd
        rw [Bool.not_eq_false] at hd
        have h1 : canonChar p = canonChar c := by
          exact beq_iff_eq.mp hcc
        rw [canonChar_digit c hd] at h1
        have := hp p (by simp)
        rw [h1] at this
        rw [hd] at this
        exact absurd this (by simp)
      · exact ih m' (fun x hx => hp x (by simp [hx])) hcm c hc'

theorem getUnit_noDigits (q : String) : ∀ c ∈ (getUnit q).data, isDigitChar c = false := by
  intro c hc
  rw [getUnit] at hc
  cases hfind : findUnit q.data with
  | none =>
    rw [hfind] at hc
    have hfact : ∀ c ∈ ("adet" : String).data, isDigitChar c = false := by decide
    exact hfact c hc
  | some m =>
    rw [hfind] at hc
    obtain ⟨_, _, tok, _, htok, hcm, _⟩ := findUnit_sound q.data m hfind
    exact caseMatch_nodigit tok.data m (unitTokens_nodigit tok htok) hcm c hc

theorem parse_merged (n : Nat) (u : String) (hu : ∀ c ∈ u.data, isDigitChar c = false) :
    parseQuantity (natToStr n ++ " " ++ u) = n := by
  have hdata : (natToStr n ++ " " ++ u).data = (natToStr n).data ++ (' ' :: u.data) := by
    simp
  have hruns : digitRuns ((natToStr n).data ++ (' ' :: u.data))
      = (natToStr n).data :: digitRuns (' ' :: u.data) := by
    apply digitRuns_run (natToStr n).data (natToStr_ne_nil n) (natToStr_all_digits n)
    simp [headOk]
    decide
  have htail : digitRuns (' ' :: u.data) = [] := by
    apply digitRuns_nil
    intro c hc
    rcases List.mem_cons.mp hc with hc | hc
    · subst hc; decide
    · exact hu c hc
  rw [parseQuantity_data, hdata, hruns, htail]
  simp [digitsVal_natToStr]

/-- C3: for every input string, `parseQuantity` (the spec&#39;s `parseMagnitude`)
returns the sum of all maximal runs of decimal digits, each read as a base-10
non-negative integer: removing one maximal run (a nonempty all-digit segment
with non-digit or absent neighbours) lowers the result by exactly that run&#39;s
value, a string without digits yields `0`, and the three example values of
the spec hold. -/
theorem C3_parseMagnitude :
    (∀ (a r b : List Char), lastOk a = true → r ≠ [] → (∀ c ∈ r, isDigitChar c = true) →
        headOk b = true →
        parseQuantity (String.mk (a ++ r ++ b))
          = parseQuantity (String.mk a) + digitsVal r + parseQuantity (String.mk b))
    ∧ (∀ s : String, (∀ c ∈ s.data, isDigitChar c = false) → parseQuantity s = 0)
    ∧ parseQuantity "3 kg 2 adet" = 5 ∧ parseQuantity "kasa" = 0 ∧ parseQuantity "" = 0 :=
  ⟨parseQuantity_split, parseQuantity_noDigits, by decide, by decide, rfl⟩

/-- Witness for C3 at a concrete input: the maximal run "12" inside "k12 x"
contributes exactly 12. -/
theorem C3_parseMagnitude_witness :
    (lastOk ['k'] = true ∧ (['1', '2'] : List Char) ≠ [] ∧
      (∀ c ∈ (['1', '2'] : List Char), isDigitChar c = true) ∧ headOk [' ', 'x'] = true) ∧
    parseQuantity (String.mk (['k'] ++ ['1', '2'] ++ [' ', 'x']))
      = parseQuantity (String.mk ['k']) + digitsVal ['1', '2']
        + parseQuantity (String.mk [' ', 'x']) :=
  ⟨⟨by decide, by decide, by decide, by decide⟩,
    C3_parseMagnitude.1 ['k'] ['1', '2'] [' ', 'x'] (by decide) (by decide) (by decide) (by decide)⟩

/-- C4: `getUnit` (the spec&#39;s `parseUnit`) returns, in its matched casing, the
first case-insensitive occurrence of a token of the fixed vocabulary: when no
occurrence exists the default "adet" is returned, and when an occurrence
exists the returned string is an occurrence at the least position; the two
example values of the spec hold. -/
theorem C4_parseUnit :
    (∀ s : String, (∀ pre m suf (tok : String), s.data = pre ++ m ++ suf →
        tok ∈ unitTokens → caseMatch tok.data m = false) → getUnit s = "adet")
    ∧ (∀ (s : String) (pre m suf : List Char) (tok : String), s.data = pre ++ m ++ suf →
        tok ∈ unitTokens → caseMatch tok.data m = true →
        ∃ (pre₂ m₂ suf₂ : List Char) (tok₂ : String), s.data = pre₂ ++ m₂ ++ suf₂ ∧ tok₂ ∈ unitTokens ∧
          caseMatch tok₂.data m₂ = true ∧ pre₂.length ≤ pre.length ∧ getUnit s = String.mk m₂)
    ∧ getUnit "12 Kasa" = "Kasa" ∧ getUnit "7" = "adet" := by
  refine ⟨?_, ?_, by decide, by decide⟩
  · intro s h
    rw [getUnit]
    cases hf : findUnit s.data with
    | some m =>
      obtain ⟨pre, suf, tok, heq, htok, hcm, -⟩ := findUnit_sound s.data m hf
      exact absurd (h pre m suf tok heq htok) (by simp [hcm])
    | none => rfl
  · intro s pre m suf tok heq htok hcm
    cases hf : findUnit s.data with
    | none => exact absurd (findUnit_none s.data hf pre m suf tok heq htok) (by simp [hcm])
    | some m₀ =>
      obtain ⟨pre₀, suf₀, tok₀, heq₀, htok₀, hcm₀, hmin⟩ := findUnit_sound s.data m₀ hf
      refine ⟨pre₀, m₀, suf₀, tok₀, heq₀, htok₀, hcm₀, hmin pre m suf tok heq htok hcm, ?_⟩
      rw [getUnit, hf]

/-- Witness for C4 at a concrete input: in "12 Kasa" the token "kasa" matches
at position 3, so `getUnit` returns an occurrence at a position at most 3. -/
theorem C4_parseUnit_witness :
    (("12 Kasa" : String).data = ['1', '2', ' '] ++ ['K', 'a', 's', 'a'] ++ [] ∧
      ("kasa" : String) ∈ unitTokens ∧
      caseMatch ("kasa" : String).data ['K', 'a', 's', 'a'] = true) ∧
    ∃ (pre₂ m₂ suf₂ : List Char) (tok₂ : String), ("12 Kasa" : String).data = pre₂ ++ m₂ ++ suf₂ ∧
      tok₂ ∈ unitTokens ∧ caseMatch tok₂.data m₂ = true ∧
      pre₂.length ≤ (['1', '2', ' '] : List Char).length ∧
      getUnit "12 Kasa" = String.mk m₂ :=
  ⟨⟨by decide, by decide, by decide⟩,
    C4_parseUnit.2.1 "12 Kasa" ['1', '2', ' '] ['K', 'a', 's', 'a'] [] "kasa"
      (by decide) (by decide) (by decide)⟩

theorem foldl_dedupStep_mem : ∀ (l acc : List String) (x : String),
    x ∈ l.foldl dedupStep acc ↔ x ∈ acc ∨ x ∈ l := by
  intro l
  induction l with
  | nil => intro acc x; simp
  | cons k l' ih =>
    intro acc x
    rw [List.foldl_cons, ih]
    unfold dedupStep
    by_cases hk : k ∈ acc
    · rw [if_pos hk]
      constructor
      · rintro (h | h)
        · exact Or.inl h
        · exact Or.inr (by simp [h])
      · rintro (h | h)
        · exact Or.inl h
        · rcases List.mem_cons.mp h with rfl | h'
          · exact Or.inl hk
          · exact Or.inr h'
    · rw [if_neg hk]
      simp only [List.mem_append, List.mem_singleton, List.mem_cons]
      tauto

theorem foldl_dedupStep_nodup : ∀ (l acc : List String), acc.Nodup →
    (l.foldl dedupStep acc).Nodup := by
  intro l
  induction l with
  | nil => intro acc h; exact h
  | cons k l' ih =>
    intro acc h
    rw [List.foldl_cons]
    apply ih
    unfold dedupStep
    by_cases hk : k ∈ acc
    · rwa [if_pos hk]
    · rw [if_neg hk]
      simp [List.nodup_append, h, hk]

theorem mem_dedupFS (l : List String) (x : String) : x ∈ dedupFS l ↔ x ∈ l := by
  rw [dedupFS, foldl_dedupStep_mem]
  simp

theorem dedupFS_nodup (l : List String) : (dedupFS l).Nodup :=
  foldl_dedupStep_nodup l [] (by simp)

theorem dedupFS_concat (l : List String) (k : String) :
    dedupFS (l ++ [k]) = if k ∈ l then dedupFS l else dedupFS l ++ [k] := by
  show List.foldl dedupStep [] (l ++ [k]) = _
  rw [List.foldl_append, List.foldl_cons, List.foldl_nil]
  show (if k ∈ dedupFS l then dedupFS l else dedupFS l ++ [k]) = _
  by_cases hk : k ∈ l
  · rw [if_pos ((mem_dedupFS l k).2 hk), if_pos hk]
  · rw [if_neg (fun h => hk ((mem_dedupFS l k).1 h)), if_neg hk]

theorem filter_key_ne_nil (l : List Rec) (k : String) (h : k ∈ l.map keyOf) :
    l.filter (fun r => keyOf r == k) ≠ [] := by
  obtain ⟨r, hr, rfl⟩ := List.mem_map.mp h
  intro hnil
  exact absurd (List.filter_eq_nil_iff.mp hnil r hr) (by simp)

theorem groupRec_concat_same (l : List Rec) (p : Rec) (k : String) (hk : keyOf p = k)
    (m : Rec) (ms : List Rec) (hf : l.filter (fun r => keyOf r == k) = m :: ms) :
    groupRec k (l ++ [p]) = merge2 (groupRec k l) p := by
  unfold groupRec
  rw [List.filter_append, hf]
  have hp : List.filter (fun r => keyOf r == k) [p] = [p] := by simp [hk]
  rw [hp]
  show List.foldl merge2 m (ms ++ [p]) = merge2 (List.foldl merge2 m ms) p
  rw [List.foldl_append]
  rfl

theorem groupRec_concat_new (l : List Rec) (p : Rec) (k : String) (hk : keyOf p = k)
    (hf : l.filter (fun r => keyOf r == k) = []) :
    groupRec k (l ++ [p]) = p := by
  unfold groupRec
  rw [List.filter_append, hf]
  have hp : List.filter (fun r => keyOf r == k) [p] = [p] := by simp [hk]
  rw [hp]
  show List.foldl merge2 p [] = p
  rfl

theorem groupRec_concat_other (l : List Rec) (p : Rec) (k : String) (hk : keyOf p ≠ k) :
    groupRec k (l ++ [p]) = groupRec k l := by
  unfold groupRec
  rw [List.filter_append]
  have hp : List.filter (fun r => keyOf r == k) [p] = [] := by simp [hk]
  rw [hp, List.append_nil]

theorem foldl_mergeStep_eq (rs : List Rec) :
    rs.foldl mergeStep [] = (dedupFS (rs.map keyOf)).map (fun k => (k, groupRec k rs)) := by
  induction rs using List.reverseRecOn with
  | nil => rfl
  | append_singleton l p ih =>
    rw [List.foldl_append, List.foldl_cons, List.foldl_nil, ih]
    have hd : (l ++ [p]).map keyOf = l.map keyOf ++ [keyOf p] := by simp
    by_cases hk : keyOf p ∈ l.map keyOf
    · have hany : ((dedupFS (l.map keyOf)).map (fun k => (k, groupRec k l))).any
          (fun kr => kr.fst == keyOf p) = true := by
        rw [List.any_eq_true]
        refine ⟨(keyOf p, groupRec (keyOf p) l), ?_, by simp⟩
        exact List.mem_map.mpr ⟨keyOf p, (mem_dedupFS _ _).2 hk, rfl⟩
      show (if ((dedupFS (l.map keyOf)).map (fun k => (k, groupRec k l))).any
            (fun kr => kr.fst == keyOf p) = true
          then ((dedupFS (l.map keyOf)).map (fun k => (k, groupRec k l))).map
            (fun kr => if kr.fst == keyOf p then (kr.fst, merge2 kr.snd p) else kr)
          else ((dedupFS (l.map keyOf)).map (fun k => (k, groupRec k l))) ++ [(keyOf p, p)])
        = _
      rw [if_pos hany]
      rw [hd, dedupFS_concat, if_pos hk]
      rw [List.map_map]
      apply List.map_congr_left
      intro k hkmem
      have hkl : k ∈ l.map keyOf := (mem_dedupFS _ _).1 hkmem
      simp only [Function.comp]
      by_cases he : k = keyOf p
      · rw [if_pos (by simp [he])]
        obtain ⟨m, ms, hf⟩ := List.exists_cons_of_ne_nil (filter_key_ne_nil l k hkl)
        rw [groupRec_concat_same l p k he.symm m ms hf]
      · rw [if_neg (by simpa using he)]
        rw [groupRec_concat_other l p k (fun h => he h.symm)]
    · have hany : ¬ (((dedupFS (l.map keyOf)).map (fun k => (k, groupRec k l))).any
          (fun kr => kr.fst == keyOf p) = true) := by
        rw [List.any_eq_true]
        rintro ⟨kr, hkr, hbeq⟩
        obtain ⟨k, hkmem, rfl⟩ := List.mem_map.mp hkr
        have he : k = keyOf p := by simpa using hbeq
        exact hk (he ▸ (mem_dedupFS _ _).1 hkmem)
      show (if ((dedupFS (l.map keyOf)).map (fun k => (k, groupRec k l))).any
            (fun kr => kr.fst == keyOf p) = true
          then ((dedupFS (l.map keyOf)).map (fun k => (k, groupRec k l))).map
            (fun kr => if kr.fst == keyOf p then (kr.fst, merge2 kr.snd p) else kr)
          else ((dedupFS (l.map keyOf)).map (fun k => (k, groupRec k l))) ++ [(keyOf p, p)])
        = _
      rw [if_neg hany]
      rw [hd, dedupFS_concat, if_neg hk]
      rw [List.map_append]
      congr 1
      · apply List.map_congr_left
        intro k hkmem
        have hkl : k ∈ l.map keyOf := (mem_dedupFS _ _).1 hkmem
        have hne : keyOf p ≠ k := fun h => hk (h ▸ hkl)
        rw [groupRec_concat_other l p k hne]
      · rw [List.map_singleton]
        rw [groupRec_concat_new l p (keyOf p) rfl]
        rw [List.filter_eq_nil_iff]
        intro r hr
        intro hbeq
        apply hk
        rw [List.mem_map]
        exact ⟨r, hr, by simpa using hbeq⟩

theorem aggregate_eq (rs : List Rec) :
    aggregate rs = (dedupFS (rs.map keyOf)).map (fun k => groupRec k rs) := by
  rw [aggregate, foldl_mergeStep_eq, List.map_map]
  rfl

theorem foldl_merge2_fields : ∀ (ms : List Rec) (m : Rec),
    (ms.foldl merge2 m).id = m.id ∧ (ms.foldl merge2 m).name = m.name ∧
    (ms.foldl merge2 m).date = m.date := by
  intro ms
  induction ms with
  | nil => intro m; exact ⟨rfl, rfl, rfl⟩
  | cons p ms' ih =>
    intro m
    rw [List.foldl_cons]
    exact ih (merge2 m p)

theorem parseQ_foldl_merge2 : ∀ (ms : List Rec) (m : Rec),
    parseQuantity ((ms.foldl merge2 m).quantity)
      = parseQuantity m.quantity + (ms.map (fun r => parseQuantity r.quantity)).sum := by
  intro ms
  induction ms with
  | nil => intro m; simp
  | cons p ms' ih =>
    intro m
    rw [List.foldl_cons, ih (merge2 m p)]
    have hq : parseQuantity ((merge2 m p).quantity)
        = parseQuantity m.quantity + parseQuantity p.quantity :=
      parse_merged _ _ (getUnit_noDigits p.quantity)
    rw [hq]
    rw [List.map_cons, List.sum_cons]
    omega

theorem foldl_merge2_quantity_last : ∀ (ms : List Rec) (m pl : Rec), ms.getLast? = some pl →
    (ms.foldl merge2 m).quantity
      = natToStr (parseQuantity m.quantity + (ms.map (fun r => parseQuantity r.quantity)).sum)
        ++ " " ++ getUnit pl.quantity := by
  intro ms
  induction ms using List.reverseRecOn with
  | nil => intro m pl h; simp at h
  | append_singleton ms' p _ih =>
    intro m pl h
    rw [List.getLast?_concat] at h
    have hp : p = pl := Option.some.inj h
    subst hp
    rw [List.foldl_append, List.foldl_cons, List.foldl_nil]
    show natToStr (parseQuantity ((ms'.foldl merge2 m).quantity) + parseQuantity p.quantity)
        ++ " " ++ getUnit p.quantity = _
    rw [parseQ_foldl_merge2]
    rw [List.map_append, List.sum_append]
    simp [Nat.add_assoc]

/-- C1 counterexample: the records (name "a-b", quantity "c") and (name "a",
quantity "b-c") have different names and different quantity texts, yet the
aggregator merges them into a single group, because the composite key joins
name and quantity with a hyphen ("a-b-c" in both cases), not with the
separator U+0000 claimed by the spec, so the key is not injective. -/
theorem C1_counterexample :
    (aggregate [mkRec 1 "a-b" "c", mkRec 2 "a" "b-c"]).length = 1 ∧
    ((mkRec 1 "a-b" "c").name, (mkRec 1 "a-b" "c").quantity)
      ≠ ((mkRec 2 "a" "b-c").name, (mkRec 2 "a" "b-c").quantity) :=
  ⟨by decide, by decide⟩

/-- C1 amended: two records are merged exactly when their composite keys
`name ++ "-" ++ quantityText` (computed from the original, pre-merge quantity
text) are identical — the separator is a hyphen and the composite is not
injective — and within one view the aggregated output has one record per
distinct key, emitted in first-seen order with pairwise distinct keys. -/
theorem C1_groupKey (rs : List Rec) :
    (dedupFS (rs.map keyOf)).Nodup ∧
    aggregate rs = (dedupFS (rs.map keyOf)).map (fun k => groupRec k rs) ∧
    (∀ r ∈ rs, keyOf r ∈ dedupFS (rs.map keyOf)) ∧
    (∀ r ∈ rs, keyOf r = r.name ++ "-" ++ r.quantity) :=
  ⟨dedupFS_nodup _, aggregate_eq rs,
    fun r hr => (mem_dedupFS _ _).2 (List.mem_map.mpr ⟨r, hr, rfl⟩),
    fun _ _ => rfl⟩

/-- C2 counterexample: the spec&#39;s end-to-end example is wrong on the code:
Elma "2 kg" and Elma "3 kg" carry different quantity texts, hence different
group keys, so nothing merges — the output has three records, none with
quantity "5 kg", not the claimed two. -/
theorem C2_counterexample :
    (aggregate [mkRec 1 "Elma" "2 kg", mkRec 2 "Elma" "3 kg", mkRec 3 "Armut" "1 adet"]).length
      = 3 ∧
    (aggregate [mkRec 1 "Elma" "2 kg", mkRec 2 "Elma" "3 kg", mkRec 3 "Armut" "1 adet"]).map
        (fun r => r.quantity) = ["2 kg", "3 kg", "1 adet"] :=
  ⟨by decide, by decide⟩

/-- C2 amended: every group is the left fold of the merge over its members in
encounter order: the result keeps the first member&#39;s id, name and date, a
singleton group keeps its quantity text unchanged, a group with at least two
members gets quantity text "(summed magnitude) (unit)" where the magnitude
sums `parseQuantity` over all members and the unit is `getUnit` of the
last-merged member&#39;s original text; groups are emitted in first-seen key
order.  The spec&#39;s example rows do not merge (distinct quantity texts give
distinct keys); rows with identical quantity texts, such as Elma "2 kg"
twice, do merge, to "4 kg". -/
theorem C2_mergeFold :
    (∀ rs : List Rec, aggregate rs = (dedupFS (rs.map keyOf)).map (fun k => groupRec k rs))
    ∧ (∀ (rs : List Rec) (k : String) (m : Rec) (ms : List Rec),
        rs.filter (fun r => keyOf r == k) = m :: ms →
        (groupRec k rs).id = m.id ∧ (groupRec k rs).name = m.name ∧
        (groupRec k rs).date = m.date ∧
        (ms = [] → (groupRec k rs).quantity = m.quantity) ∧
        (∀ pl, ms.getLast? = some pl →
          (groupRec k rs).quantity
            = natToStr (((m :: ms).map (fun r => parseQuantity r.quantity)).sum)
              ++ " " ++ getUnit pl.quantity))
    ∧ aggregate [mkRec 1 "Elma" "2 kg", mkRec 2 "Elma" "3 kg", mkRec 3 "Armut" "1 adet"]
        = [mkRec 1 "Elma" "2 kg", mkRec 2 "Elma" "3 kg", mkRec 3 "Armut" "1 adet"]
    ∧ aggregate [mkRec 1 "Elma" "2 kg", mkRec 2 "Elma" "2 kg", mkRec 3 "Armut" "1 adet"]
        = [⟨1, "Elma", "4 kg", "4 kg", "2025-08-26"⟩, mkRec 3 "Armut" "1 adet"] := by
  refine ⟨aggregate_eq, ?_, by decide, by decide⟩
  intro rs k m ms hf
  have hg : groupRec k rs = ms.foldl merge2 m := by
    unfold groupRec
    rw [hf]
  obtain ⟨hid, hname, hdate⟩ := foldl_merge2_fields ms m
  refine ⟨by rw [hg]; exact hid, by rw [hg]; exact hname, by rw [hg]; exact hdate, ?_, ?_⟩
  · intro he
    subst he
    rw [hg]
    rfl
  · intro pl hpl
    rw [hg, foldl_merge2_quantity_last ms m pl hpl]
    rw [List.map_cons, List.sum_cons]

/-- Witness for C2 at a concrete input: the two Elma "2 kg" rows share the key
"Elma-2 kg" and merge to quantity "4 kg" = natToStr (2+2) ++ " " ++ "kg". -/
theorem C2_mergeFold_witness :
    ([mkRec 1 "Elma" "2 kg", mkRec 2 "Elma" "2 kg", mkRec 3 "Armut" "1 adet"].filter
        (fun r => keyOf r == "Elma-2 kg") = [mkRec 1 "Elma" "2 kg", mkRec 2 "Elma" "2 kg"]
      ∧ ([mkRec 2 "Elma" "2 kg"].getLast? = some (mkRec 2 "Elma" "2 kg"))) ∧
    (groupRec "Elma-2 kg"
        [mkRec 1 "Elma" "2 kg", mkRec 2 "Elma" "2 kg", mkRec 3 "Armut" "1 adet"]).quantity
      = natToStr ((([mkRec 1 "Elma" "2 kg", mkRec 2 "Elma" "2 kg"]).map
          (fun r => parseQuantity r.quantity)).sum)
        ++ " " ++ getUnit (mkRec 2 "Elma" "2 kg").quantity :=
  ⟨⟨by decide, by decide⟩,
    (C2_mergeFold.2.1 [mkRec 1 "Elma" "2 kg", mkRec 2 "Elma" "2 kg", mkRec 3 "Armut" "1 adet"]
      "Elma-2 kg" (mkRec 1 "Elma" "2 kg") [mkRec 2 "Elma" "2 kg"] (by decide)).2.2.2.2
      (mkRec 2 "Elma" "2 kg") (by decide)⟩

theorem sum_filter_split (l : List Rec) (p : Rec → Bool) (g : Rec → Nat) :
    ((l.filter p).map g).sum + ((l.filter (fun r => !p r)).map g).sum = (l.map g).sum := by
  induction l with
  | nil => rfl
  | cons r l' ih =>
    by_cases hp : p r = true
    · simp [List.filter_cons, hp]
      omega
    · rw [Bool.not_eq_true] at hp
      simp [List.filter_cons, hp]
      omega

theorem sum_groups (g : Rec → Nat) : ∀ (KS : List String) (l : List Rec), KS.Nodup →
    (∀ r ∈ l, keyOf r ∈ KS) →
    (KS.map (fun k => ((l.filter (fun r => keyOf r == k)).map g).sum)).sum = (l.map g).sum := by
  intro KS
  induction KS with
  | nil =>
    intro l _ hcov
    have hnil : l = [] := List.eq_nil_iff_forall_not_mem.mpr
      (fun r hr => by simpa using hcov r hr)
    subst hnil
    rfl
  | cons k KS' ih =>
    intro l hnd hcov
    rw [List.map_cons, List.sum_cons]
    have hnd' : KS'.Nodup := (List.nodup_cons.mp hnd).2
    have hknotin : k ∉ KS' := (List.nodup_cons.mp hnd).1
    have hcov' : ∀ r ∈ l.filter (fun r => !(keyOf r == k)), keyOf r ∈ KS' := by
      intro r hr
      rw [List.mem_filter] at hr
      obtain ⟨hrl, hrk⟩ := hr
      rcases List.mem_cons.mp (hcov r hrl) with he | h'
      · exact absurd (by simp [he] : (!(keyOf r == k)) = false) (by simp [hrk])
      · exact h'
    have hmap : KS'.map (fun k' => ((l.filter (fun r => keyOf r == k')).map g).sum)
        = KS'.map (fun k' =>
            (((l.filter (fun r => !(keyOf r == k))).filter (fun r => keyOf r == k')).map g).sum) := by
      apply List.map_congr_left
      intro k' hk'
      rw [List.filter_filter]
      have hpt : ∀ r ∈ l, (keyOf r == k') = ((keyOf r == k') && !(keyOf r == k)) := by
        intro r _
        by_cases he : keyOf r = k'
        · have hne : k' ≠ k := fun h => hknotin (h ▸ hk')
          simp [he, hne]
        · simp [he]
      rw [List.filter_congr hpt]
    rw [hmap, ih (l.filter (fun r => !(keyOf r == k))) hnd' hcov']
    exact sum_filter_split l (fun r => keyOf r == k) g

theorem totalMag_aggregate (rs : List Rec) : totalMag (aggregate rs) = totalMag rs := by
  rw [totalMag, aggregate_eq, List.map_map]
  have hpt : (dedupFS (rs.map keyOf)).map ((fun r => parseQuantity r.quantity)
        ∘ (fun k => groupRec k rs))
      = (dedupFS (rs.map keyOf)).map (fun k =>
          ((rs.filter (fun r => keyOf r == k)).map (fun r => parseQuantity r.quantity)).sum) := by
    apply List.map_congr_left
    intro k hkmem
    simp only [Function.comp]
    have hkl : k ∈ rs.map keyOf := (mem_dedupFS _ _).1 hkmem
    obtain ⟨m, ms, hf⟩ := List.exists_cons_of_ne_nil (filter_key_ne_nil rs k hkl)
    have hg : groupRec k rs = ms.foldl merge2 m := by
      unfold groupRec
      rw [hf]
    rw [hg, parseQ_foldl_merge2, hf, List.map_cons, List.sum_cons]
  rw [hpt]
  rw [sum_groups (fun r => parseQuantity r.quantity) (dedupFS (rs.map keyOf)) rs
    (dedupFS_nodup _) (fun r hr => (mem_dedupFS _ _).2 (List.mem_map.mpr ⟨r, hr, rfl⟩))]
  rfl

/-- C8 counterexample: on the rows (a, "3 kg"), (a, "3 kg"), (a, "6 kg") the
first aggregation produces per-group magnitudes [6, 6]; re-aggregating merges
the two rewritten "6 kg" records (their keys now collide) into [12] — the
multiset of per-group magnitudes is not preserved. -/
theorem C8_counterexample :
    ¬ ((aggregate (aggregate [mkRec 1 "a" "3 kg", mkRec 2 "a" "3 kg", mkRec 3 "a" "6 kg"])).map
        (fun r => parseQuantity r.quantity)).Perm
      ((aggregate [mkRec 1 "a" "3 kg", mkRec 2 "a" "3 kg", mkRec 3 "a" "6 kg"]).map
        (fun r => parseQuantity r.quantity)) := by
  decide

/-- C8 amended: aggregation — hence also re-aggregation of an aggregated
list — preserves the total summed magnitude over all records, though not the
per-group multiset of magnitudes. -/
theorem C8_totalMagnitude (rs : List Rec) :
    totalMag (aggregate (aggregate rs)) = totalMag (aggregate rs)
    ∧ totalMag (aggregate rs) = totalMag rs :=
  ⟨totalMag_aggregate (aggregate rs), totalMag_aggregate rs⟩

/-- C6: the duplicate annotator maps each record of the aggregated list to an
annotated record whose `duplicateCount` is the number of records of that list
sharing its name, with `isDuplicate` true exactly when that count exceeds 1;
the spec&#39;s Domates example produces two groups, both annotated with count 2
and flag true. -/
theorem C6_duplicateCounts :
    (∀ rs : List Rec, (annotate rs).length = rs.length)
    ∧ (∀ (rs : List Rec) (i : Nat) (hi : i < (annotate rs).length),
        ((annotate rs).get ⟨i, hi⟩).duplicateCount
          = rs.countP (fun q => q.name == ((annotate rs).get ⟨i, hi⟩).name)
        ∧ (((annotate rs).get ⟨i, hi⟩).isDuplicate = true
            ↔ ((annotate rs).get ⟨i, hi⟩).duplicateCount > 1))
    ∧ annotate (aggregate [mkRec 1 "Domates" "5 kg", mkRec 2 "Domates" "3 kasa"])
        = [⟨1, "Domates", "5 kg", "5 kg", "2025-08-26", 2, true⟩,
           ⟨2, "Domates", "3 kasa", "3 kasa", "2025-08-26", 2, true⟩] := by
  refine ⟨fun rs => by simp [annotate], ?_, by decide⟩
  intro rs i hi
  have hget : (annotate rs).get ⟨i, hi⟩
      = annRec rs (rs.get ⟨i, by simpa [annotate] using hi⟩) := by
    simp [annotate]
  rw [hget]
  refine ⟨rfl, ?_⟩
  show decide (rs.countP (fun q => q.name == (rs.get _).name) > 1) = true ↔ _
  simp [annRec]

/-- Witness for C6 at a concrete input: the first Domates group has
duplicate count 2 and is flagged. -/
theorem C6_duplicateCounts_witness :
    0 < (annotate (aggregate [mkRec 1 "Domates" "5 kg", mkRec 2 "Domates" "3 kasa"])).length ∧
    ((annotate (aggregate [mkRec 1 "Domates" "5 kg", mkRec 2 "Domates" "3 kasa"])).get
        ⟨0, by decide⟩).duplicateCount
      = (aggregate [mkRec 1 "Domates" "5 kg", mkRec 2 "Domates" "3 kasa"]).countP
          (fun q => q.name == ((annotate (aggregate [mkRec 1 "Domates" "5 kg",
            mkRec 2 "Domates" "3 kasa"])).get ⟨0, by decide⟩).name) :=
  ⟨by decide,
    (C6_duplicateCounts.2.1 (aggregate [mkRec 1 "Domates" "5 kg", mkRec 2 "Domates" "3 kasa"])
      0 (by decide)).1⟩

/-- C10: the core pipeline is a total function (every stage below is a total
Lean function, so no exception can arise), and on the empty record list it
returns the empty list with both summary counts — the total record count and
the filtered/aggregated count — equal to 0, for every choice of search term,
sort direction, sort column and selected date. -/
theorem C10_emptyPipeline (searchTerm sortBy sortColumn selectedDate : String) :
    filteredPipeline [] searchTerm sortBy sortColumn selectedDate = []
    ∧ ([] : List Rec).length = 0
    ∧ (filteredPipeline [] searchTerm sortBy sortColumn selectedDate).length = 0 := by
  have h : filteredPipeline [] searchTerm sortBy sortColumn selectedDate = [] := by
    unfold filteredPipeline
    rw [List.filter_nil]
    unfold textFilterRec
    have h2 : (if searchTerm != "" then List.filter (fun p => nameMatches p.name searchTerm) []
        else ([] : List Rec)) = [] := by
      split <;> simp
    rw [h2]
    show sortStage sortColumn sortBy (annotate (aggregate [])) = []
    rw [show aggregate [] = [] from rfl, show annotate [] = [] from rfl]
    unfold sortStage
    split <;> rfl
  exact ⟨h, rfl, by rw [h]; rfl⟩

theorem mem_mapIdx : ∀ (rows : List RawRow) (i : Nat) (r : Rec),
    r ∈ mapIdx i rows ↔ ∃ j row, rows.get? j = some row ∧ r = buildRec (i + j) row := by
  intro rows
  induction rows with
  | nil => intro i r; simp [mapIdx]
  | cons row rows' ih =>
    intro i r
    rw [mapIdx]
    constructor
    · intro h
      rcases List.mem_cons.mp h with rfl | h'
      · exact ⟨0, row, rfl, rfl⟩
      · obtain ⟨j, row', hj, he⟩ := (ih (i + 1) r).1 h'
        refine ⟨j + 1, row', by simpa using hj, ?_⟩
        rw [he]
        congr 1
        omega
    · rintro ⟨j, row', hj, rfl⟩
      cases j with
      | zero =>
        obtain rfl : row = row' := by simpa using hj
        exact List.mem_cons_self _ _
      | succ j' =>
        apply List.mem_cons_of_mem
        apply (ih (i + 1) (buildRec (i + (j' + 1)) row')).2
        refine ⟨j', row', by simpa using hj, ?_⟩
        congr 1
        omega

theorem mapIdx_ids : ∀ (rows : List RawRow) (i : Nat),
    ((mapIdx i rows).map (fun r => r.id)).Pairwise (fun a b => a < b) := by
  intro rows
  induction rows with
  | nil => intro i; simp [mapIdx]
  | cons row rows' ih =>
    intro i
    rw [mapIdx, List.map_cons, List.pairwise_cons]
    refine ⟨?_, ih (i + 1)⟩
    intro b hb
    rw [List.mem_map] at hb
    obtain ⟨r, hr, rfl⟩ := hb
    obtain ⟨j, row', hj, rfl⟩ := (mem_mapIdx rows' (i + 1) r).1 hr
    show (buildRec i row).id < (buildRec (i + 1 + j) row').id
    show i + 1 < i + 1 + j + 1
    omega

/-- C5 counterexample: on the rows [(name "", qty "1"), (name "A", qty "2")]
the first row is dropped but ids are assigned before the drop, so the single
surviving record has id 2 — not the sequential ids 1..k the claim asserts. -/
theorem C5_counterexample :
    (processedProducts [⟨some "", none, some "1", none⟩, ⟨some "A", none, some "2", none⟩]).map
        (fun r => r.id)
      ≠ List.range' 1 (processedProducts
          [⟨some "", none, some "1", none⟩, ⟨some "A", none, some "2", none⟩]).length := by
  decide

/-- C5 amended: the normalizer preserves input order (ids of the output are
strictly increasing, so only drops occur, no reordering); every surviving
record has non-empty trimmed name and quantity and equals the record built
from the input row at position id - 1 (ids are 1-based raw-input positions,
assigned before dropping, so dropped rows leave gaps); and a row survives
exactly when both its resolved, trimmed fields are non-empty. -/
theorem C5_normalizer :
    (∀ rows : List RawRow,
      ((processedProducts rows).map (fun r => r.id)).Pairwise (fun a b => a < b))
    ∧ (∀ (rows : List RawRow) (r : Rec), r ∈ processedProducts rows →
        r.name ≠ "" ∧ r.quantity ≠ "" ∧ 1 ≤ r.id ∧
        ∃ row, rows.get? (r.id - 1) = some row ∧ r = buildRec (r.id - 1) row)
    ∧ (∀ (rows : List RawRow) (i : Nat) (row : RawRow), rows.get? i = some row →
        (keepRec (buildRec i row) = true ↔ ∃ r ∈ processedProducts rows, r.id = i + 1)) := by
  refine ⟨?_, ?_, ?_⟩
  · intro rows
    have hsub : List.Sublist ((processedProducts rows).map (fun r => r.id))
        ((mapIdx 0 rows).map (fun r => r.id)) :=
      List.Sublist.map _ (List.filter_sublist _)
    exact (mapIdx_ids rows 0).sublist hsub
  · intro rows r hr
    rw [processedProducts, List.mem_filter] at hr
    obtain ⟨hmem, hkeep⟩ := hr
    obtain ⟨j, row, hj, rfl⟩ := (mem_mapIdx rows 0 r).1 hmem
    rw [keepRec, Bool.and_eq_true, bne_iff_ne, bne_iff_ne] at hkeep
    have hid : (buildRec (0 + j) row).id = j + 1 := by
      show 0 + j + 1 = j + 1
      omega
    refine ⟨hkeep.1, hkeep.2, by omega, row, ?_, ?_⟩
    · rw [hid]
      simpa using hj
    · rw [hid]
      congr 1
      omega
  · intro rows i row hrow
    constructor
    · intro hkeep
      refine ⟨buildRec i row, ?_, rfl⟩
      rw [processedProducts, List.mem_filter]
      exact ⟨(mem_mapIdx rows 0 (buildRec i row)).2 ⟨i, row, hrow, by rw [Nat.zero_add]⟩, hkeep⟩
    · rintro ⟨r, hrmem, hid⟩
      rw [processedProducts, List.mem_filter] at hrmem
      obtain ⟨hmem, hkeep⟩ := hrmem
      obtain ⟨j, row', hj, rfl⟩ := (mem_mapIdx rows 0 r).1 hmem
      have hji : j = i := by
        have : (buildRec (0 + j) row').id = i + 1 := hid
        have : 0 + j + 1 = i + 1 := this
        omega
      subst hji
      have hrr : row' = row := by
        rw [hrow] at hj
        exact (Option.some.inj hj).symm
      subst hrr
      have he : buildRec (0 + j) row' = buildRec j row' := by
        rw [Nat.zero_add]
      rw [← he]
      exact hkeep

/-- Witness for C5 at a concrete input: the surviving record of the example
rows is the one built from input position 1, with id 2. -/
theorem C5_normalizer_witness :
    ((⟨2, "A", "2", "2", "2025-08-26"⟩ : Rec) ∈ processedProducts
        [⟨some "", none, some "1", none⟩, ⟨some "A", none, some "2", none⟩]) ∧
    ((⟨2, "A", "2", "2", "2025-08-26"⟩ : Rec).name ≠ "" ∧
      (⟨2, "A", "2", "2", "2025-08-26"⟩ : Rec).quantity ≠ "" ∧
      1 ≤ (⟨2, "A", "2", "2", "2025-08-26"⟩ : Rec).id ∧
      ∃ row, [⟨some "", none, some "1", none⟩,
          (⟨some "A", none, some "2", none⟩ : RawRow)].get?
          ((⟨2, "A", "2", "2", "2025-08-26"⟩ : Rec).id - 1) = some row ∧
        (⟨2, "A", "2", "2", "2025-08-26"⟩ : Rec)
          = buildRec ((⟨2, "A", "2", "2", "2025-08-26"⟩ : Rec).id - 1) row) :=
  ⟨by decide,
    C5_normalizer.2.1 [⟨some "", none, some "1", none⟩, ⟨some "A", none, some "2", none⟩]
      ⟨2, "A", "2", "2", "2025-08-26"⟩ (by decide)⟩

/-- Is some record with this key kept by the search?  Under the hypothesis
that equal-key records share a name, this is a well-defined predicate on
keys. -/
def keyAllowed (rs : List Rec) (s : String) (k : String) : Bool :=
  match rs.find? (fun r => keyOf r == k) with
  | some r₀ => nameMatches r₀.name s
  | none => false

theorem find?_eq_head_filter (l : List Rec) (p : Rec → Bool) :
    l.find? p = (l.filter p).head? := by
  induction l with
  | nil => rfl
  | cons a l' ih =>
    by_cases hp : p a = true
    · simp [List.find?_cons, hp, List.filter_cons]
    · rw [Bool.not_eq_true] at hp
      simp only [List.find?_cons, hp, List.filter_cons]
      exact ih

theorem nameMatches_eq_keyAllowed (rs : List Rec) (s : String)
    (H : ∀ r₁ ∈ rs, ∀ r₂ ∈ rs, keyOf r₁ = keyOf r₂ → r₁.name = r₂.name) :
    ∀ r ∈ rs, nameMatches r.name s = keyAllowed rs s (keyOf r) := by
  intro r hr
  have hfind : (rs.find? (fun x => keyOf x == keyOf r)).isSome := by
    rw [List.find?_isSome]
    exact ⟨r, hr, by simp⟩
  obtain ⟨r₀, hr₀⟩ := Option.isSome_iff_exists.mp hfind
  have hr₀mem : r₀ ∈ rs := List.mem_of_find?_eq_some hr₀
  have hr₀key : keyOf r₀ = keyOf r := by simpa using List.find?_some hr₀
  have hname : r₀.name = r.name := H r₀ hr₀mem r hr hr₀key
  rw [keyAllowed, hr₀]
  show nameMatches r.name s = nameMatches r₀.name s
  rw [hname]

theorem dedupFS_filter (Q : String → Bool) : ∀ ks : List String,
    dedupFS (ks.filter Q) = (dedupFS ks).filter Q := by
  intro ks
  induction ks using List.reverseRecOn with
  | nil => rfl
  | append_singleton ks k ih =>
    rw [List.filter_append]
    by_cases hq : Q k = true
    · rw [show List.filter Q [k] = [k] from by simp [hq]]
      rw [dedupFS_concat, dedupFS_concat]
      by_cases hk : k ∈ ks
      · rw [if_pos (List.mem_filter.mpr ⟨hk, hq⟩), if_pos hk, ih]
      · rw [if_neg (fun h => hk (List.mem_filter.mp h).1), if_neg hk, List.filter_append, ih]
        rw [show List.filter Q [k] = [k] from by simp [hq]]
    · rw [Bool.not_eq_true] at hq
      rw [show List.filter Q [k] = [] from by simp [hq]]
      rw [List.append_nil, ih, dedupFS_concat]
      by_cases hk : k ∈ ks
      · rw [if_pos hk]
      · rw [if_neg hk, List.filter_append]
        rw [show List.filter Q [k] = [] from by simp [hq], List.append_nil]

theorem aggregate_filter_comm (rs : List Rec) (s : String)
    (H : ∀ r₁ ∈ rs, ∀ r₂ ∈ rs, keyOf r₁ = keyOf r₂ → r₁.name = r₂.name) :
    aggregate (rs.filter (fun p => nameMatches p.name s))
      = (aggregate rs).filter (fun p => nameMatches p.name s) := by
  have hPQ := nameMatches_eq_keyAllowed rs s H
  have hfc : rs.filter (fun p => nameMatches p.name s)
      = rs.filter (fun r => keyAllowed rs s (keyOf r)) :=
    List.filter_congr hPQ
  have hkeys : (rs.filter (fun p => nameMatches p.name s)).map keyOf
      = (rs.map keyOf).filter (keyAllowed rs s) := by
    rw [hfc, List.filter_map]
    rfl
  have hmembers : ∀ k, keyAllowed rs s k = true →
      (rs.filter (fun p => nameMatches p.name s)).filter (fun r => keyOf r == k)
        = rs.filter (fun r => keyOf r == k) := by
    intro k hq
    rw [List.filter_filter]
    apply List.filter_congr
    intro r hr
    by_cases he : keyOf r = k
    · have : nameMatches r.name s = true := by
        rw [hPQ r hr, he]
        exact hq
      simp [he, this]
    · simp [he]
  have hgroups : ∀ k, keyAllowed rs s k = true →
      groupRec k (rs.filter (fun p => nameMatches p.name s)) = groupRec k rs := by
    intro k hq
    unfold groupRec
    rw [hmembers k hq]
  have hgroupName : ∀ k ∈ rs.map keyOf,
      nameMatches (groupRec k rs).name s = keyAllowed rs s k := by
    intro k hkl
    obtain ⟨m, ms, hf⟩ := List.exists_cons_of_ne_nil (filter_key_ne_nil rs k hkl)
    have hg : groupRec k rs = ms.foldl merge2 m := by
      unfold groupRec
      rw [hf]
    rw [hg, (foldl_merge2_fields ms m).2.1]
    rw [keyAllowed, find?_eq_head_filter, hf]
    rfl
  rw [aggregate_eq, aggregate_eq]
  rw [hkeys, dedupFS_filter]
  rw [List.filter_map]
  have hleft : ((dedupFS (rs.map keyOf)).filter (keyAllowed rs s)).map
        (fun k => groupRec k (rs.filter (fun p => nameMatches p.name s)))
      = ((dedupFS (rs.map keyOf)).filter (keyAllowed rs s)).map (fun k => groupRec k rs) := by
    apply List.map_congr_left
    intro k hkmem
    exact hgroups k (List.mem_filter.mp hkmem).2
  rw [hleft]
  have hright : (dedupFS (rs.map keyOf)).filter
        ((fun p => nameMatches p.name s) ∘ (fun k => groupRec k rs))
      = (dedupFS (rs.map keyOf)).filter (keyAllowed rs s) := by
    apply List.filter_congr
    intro k hkmem
    show nameMatches (groupRec k rs).name s = keyAllowed rs s k
    exact hgroupName k ((mem_dedupFS _ _).1 hkmem)
  rw [hright]

theorem annotate_filter_comm (l : List Rec) (s : String) :
    annotate (l.filter (fun p => nameMatches p.name s))
      = (annotate l).filter (fun p => nameMatches p.name s) := by
  unfold annotate
  rw [List.filter_map]
  have hp : ((fun (p : ARec) => nameMatches p.name s) ∘ annRec l)
      = fun r => nameMatches r.name s := rfl
  rw [hp]
  apply List.map_congr_left
  intro r hr
  rw [List.mem_filter] at hr
  obtain ⟨hrl, hPr⟩ := hr
  have hcount : (l.filter (fun p => nameMatches p.name s)).countP (fun q => q.name == r.name)
      = l.countP (fun q => q.name == r.name) := by
    rw [List.countP_filter]
    apply List.countP_congr
    intro q _
    by_cases he : q.name = r.name
    · simp [he, hPr]
    · simp [he]
  unfold annRec
  rw [hcount]

/-- C7 counterexample: with the records (name "a-b", quantity "c") and
(name "a", quantity "b-c") and the search text "a-b", filtering before
aggregation keeps only the first record unmerged (quantity "c"), while
aggregating first merges both (the hyphen-joined keys collide) into a record
with quantity "0 adet" that the filter then keeps — the two orders differ. -/
theorem C7_counterexample :
    annotate (aggregate (textFilterRec "a-b" [mkRec 1 "a-b" "c", mkRec 2 "a" "b-c"]))
      ≠ textFilterA "a-b" (annotate (aggregate [mkRec 1 "a-b" "c", mkRec 2 "a" "b-c"])) := by
  decide

/-- C7 amended: provided any two records with equal composite group keys have
equal names (true in particular when no hyphen ambiguity occurs), applying
the case-insensitive name-substring filter before aggregation yields exactly
the aggregated, duplicate-annotated output of applying it after aggregation
and annotation. -/
theorem C7_textFilterCommutes (rs : List Rec) (s : String)
    (H : ∀ r₁ ∈ rs, ∀ r₂ ∈ rs, keyOf r₁ = keyOf r₂ → r₁.name = r₂.name) :
    annotate (aggregate (textFilterRec s rs)) = textFilterA s (annotate (aggregate rs)) := by
  unfold textFilterRec textFilterA
  by_cases hs : (s != "") = true
  · rw [if_pos hs, if_pos hs]
    rw [aggregate_filter_comm rs s H, annotate_filter_comm]
  · rw [if_neg hs, if_neg hs]

/-- Witness for C7 at a concrete input: the Elma/Armut rows have unambiguous
keys, and the search "elma" commutes with aggregation and annotation. -/
theorem C7_textFilterCommutes_witness :
    (∀ r₁ ∈ [mkRec 1 "Elma" "2 kg", mkRec 2 "Elma" "2 kg", mkRec 3 "Armut" "1 adet"],
      ∀ r₂ ∈ [mkRec 1 "Elma" "2 kg", mkRec 2 "Elma" "2 kg", mkRec 3 "Armut" "1 adet"],
        keyOf r₁ = keyOf r₂ → r₁.name = r₂.name) ∧
    annotate (aggregate (textFilterRec "elma"
        [mkRec 1 "Elma" "2 kg", mkRec 2 "Elma" "2 kg", mkRec 3 "Armut" "1 adet"]))
      = textFilterA "elma" (annotate (aggregate
          [mkRec 1 "Elma" "2 kg", mkRec 2 "Elma" "2 kg", mkRec 3 "Armut" "1 adet"])) :=
  ⟨by decide,
    C7_textFilterCommutes [mkRec 1 "Elma" "2 kg", mkRec 2 "Elma" "2 kg", mkRec 3 "Armut" "1 adet"]
      "elma" (by decide)⟩

theorem mem_insertSorted (c : α → α → Int) (x : α) : ∀ (l : List α) (z : α),
    z ∈ insertSorted c x l ↔ z = x ∨ z ∈ l := by
  intro l
  induction l with
  | nil => intro z; simp [insertSorted]
  | cons y ys ih =>
    intro z
    rw [insertSorted]
    by_cases h : c x y < 0
    · rw [if_pos h]
      simp only [List.mem_cons]
    · rw [if_neg h]
      simp only [List.mem_cons, ih]
      tauto

theorem insertSorted_perm (c : α → α → Int) (x : α) : ∀ l : List α,
    (insertSorted c x l).Perm (x :: l) := by
  intro l
  induction l with
  | nil => exact List.Perm.refl _
  | cons y ys ih =>
    rw [insertSorted]
    by_cases h : c x y < 0
    · rw [if_pos h]
    · rw [if_neg h]
      exact (ih.cons y).trans (List.Perm.swap x y ys)

theorem foldl_insertSorted_perm (c : α → α → Int) : ∀ (l acc : List α),
    (l.foldl (fun acc x => insertSorted c x acc) acc).Perm (acc ++ l) := by
  intro l
  induction l with
  | nil =>
    intro acc
    rw [List.foldl_nil, List.append_nil]
  | cons x l' ih =>
    intro acc
    rw [List.foldl_cons]
    have h1 := ih (insertSorted c x acc)
    have h2 : (insertSorted c x acc ++ l').Perm ((x :: acc) ++ l') :=
      (insertSorted_perm c x acc).append_right l'
    have h3 : ((x :: acc) ++ l').Perm (acc ++ x :: l') := by
      show (x :: (acc ++ l')).Perm (acc ++ x :: l')
      exact List.perm_middle.symm
    exact (h1.trans h2).trans h3

theorem stableSortBy_perm (c : α → α → Int) (l : List α) : (stableSortBy c l).Perm l :=
  foldl_insertSorted_perm c l []

theorem insertSorted_pairwise (c : α → α → Int) (hanti : ∀ a b, c a b = -(c b a))
    (htrans : ∀ a b d, c a b ≤ 0 → c b d ≤ 0 → c a d ≤ 0) (x : α) :
    ∀ l : List α, l.Pairwise (fun a b => c a b ≤ 0) →
    (insertSorted c x l).Pairwise (fun a b => c a b ≤ 0) := by
  intro l
  induction l with
  | nil => intro _; simp [insertSorted]
  | cons y ys ih =>
    intro h
    obtain ⟨hy, hys⟩ := List.pairwise_cons.mp h
    rw [insertSorted]
    by_cases hxy : c x y < 0
    · rw [if_pos hxy]
      rw [List.pairwise_cons]
      refine ⟨?_, h⟩
      intro z hz
      rcases List.mem_cons.mp hz with rfl | hz'
      · omega
      · exact htrans x y z (by omega) (hy z hz')
    · rw [if_neg hxy]
      rw [List.pairwise_cons]
      refine ⟨?_, ih hys⟩
      intro z hz
      rcases (mem_insertSorted c x ys z).1 hz with he | hz'
      · rw [he]
        have := hanti x y
        omega
      · exact hy z hz'

theorem stableSortBy_sorted (c : α → α → Int) (hanti : ∀ a b, c a b = -(c b a))
    (htrans : ∀ a b d, c a b ≤ 0 → c b d ≤ 0 → c a d ≤ 0) (l : List α) :
    (stableSortBy c l).Pairwise (fun a b => c a b ≤ 0) := by
  suffices haux : ∀ (l acc : List α), acc.Pairwise (fun a b => c a b ≤ 0) →
      (l.foldl (fun acc x => insertSorted c x acc) acc).Pairwise (fun a b => c a b ≤ 0) from
    haux l [] (by simp)
  intro l
  induction l with
  | nil => intro acc h; exact h
  | cons x l' ih =>
    intro acc h
    rw [List.foldl_cons]
    exact ih _ (insertSorted_pairwise c hanti htrans x acc h)

theorem perm_pairwise_asym_eq {r : α → α → Prop} (hasym : ∀ a b, r a b → ¬ r b a) :
    ∀ (l₁ l₂ : List α), l₁.Perm l₂ → l₁.Pairwise r → l₂.Pairwise r → l₁ = l₂ := by
  intro l₁
  induction l₁ with
  | nil =>
    intro l₂ hp _ _
    exact (List.Perm.eq_nil hp.symm).symm
  | cons a t₁ ih =>
    intro l₂ hp h₁ h₂
    cases l₂ with
    | nil => exact absurd (List.Perm.eq_nil hp) (by simp)
    | cons b t₂ =>
      by_cases hab : a = b
      · subst hab
        have hp' : t₁.Perm t₂ := hp.cons_inv
        rw [ih t₂ hp' (List.pairwise_cons.mp h₁).2 (List.pairwise_cons.mp h₂).2]
      · have ha2 : a ∈ b :: t₂ := hp.mem_iff.mp (by simp)
        have hat₂ : a ∈ t₂ := by
          rcases List.mem_cons.mp ha2 with h | h
          · exact absurd h hab
          · exact h
        have hb1 : b ∈ a :: t₁ := hp.mem_iff.mpr (by simp)
        have hbt₁ : b ∈ t₁ := by
          rcases List.mem_cons.mp hb1 with h | h
          · exact absurd h.symm hab
          · exact h
        have hr1 : r a b := (List.pairwise_cons.mp h₁).1 b hbt₁
        have hr2 : r b a := (List.pairwise_cons.mp h₂).1 a hat₂
        exact absurd hr2 (hasym a b hr1)

theorem cmpKeys_anti : ∀ u v : List Nat, cmpKeys u v = -(cmpKeys v u) := by
  intro u
  induction u with
  | nil =>
    intro v
    cases v with
    | nil => rfl
    | cons y ys => rfl
  | cons x xs ih =>
    intro v
    cases v with
    | nil => rfl
    | cons y ys =>
      show (if x < y then (-1 : Int) else if y < x then 1 else cmpKeys xs ys)
        = -(if y < x then (-1 : Int) else if x < y then 1 else cmpKeys ys xs)
      by_cases h1 : x < y
      · rw [if_pos h1, if_neg (by omega), if_pos h1]
      · by_cases h2 : y < x
        · rw [if_neg h1, if_pos h2, if_pos h2]
          decide
        · rw [if_neg h1, if_neg h2, if_neg h2, if_neg h1, ih ys]

theorem cmpKeys_trans_le : ∀ u v w : List Nat,
    cmpKeys u v ≤ 0 → cmpKeys v w ≤ 0 → cmpKeys u w ≤ 0 := by
  intro u
  induction u with
  | nil =>
    intro v w _ _
    cases w with
    | nil => exact le_refl 0
    | cons z zs => norm_num [cmpKeys]
  | cons x xs ih =>
    intro v w h1 h2
    cases v with
    | nil => exact absurd h1 (by norm_num [cmpKeys])
    | cons y ys =>
      cases w with
      | nil => exact absurd h2 (by norm_num [cmpKeys])
      | cons z zs =>
        simp only [cmpKeys] at h1 h2 ⊢
        split_ifs at h1 h2 ⊢ <;> first
          | omega
          | exact ih ys zs h1 h2

theorem localeCmp_anti (a b : String) : localeCmp a b = -(localeCmp b a) :=
  cmpKeys_anti _ _

theorem localeCmp_trans_le (a b c : String) :
    localeCmp a b ≤ 0 → localeCmp b c ≤ 0 → localeCmp a c ≤ 0 :=
  cmpKeys_trans_le _ _ _

theorem recCompare_name_asc (a b : ARec) :
    recCompare "name" "asc" a b = localeCmp (jsToLower a.name) (jsToLower b.name) := by
  simp [recCompare]

theorem recCompare_name_desc (a b : ARec) :
    recCompare "name" "desc" a b = -(localeCmp (jsToLower a.name) (jsToLower b.name)) := by
  simp [recCompare]

/-- C9 counterexample: the records named "A" and "a" have distinct names, but
their lower-cased names collate equal; the stable sort leaves their relative
order unchanged under both directions, so reversing the ascending result does
not equal the descending result. -/
theorem C9_counterexample :
    ((annotate [mkRec 1 "A" "1 kg", mkRec 2 "a" "2 kg"]).map (fun r => r.name)).Nodup ∧
    (sortStage "name" "asc" (annotate [mkRec 1 "A" "1 kg", mkRec 2 "a" "2 kg"])).reverse
      ≠ sortStage "name" "desc" (annotate [mkRec 1 "A" "1 kg", mkRec 2 "a" "2 kg"]) :=
  ⟨by decide, by decide⟩

/-- C9 amended: for every record list in which no two records&#39; lower-cased
names are equivalent under the Turkish collation (the name comparator never
returns 0 on a pair), sorting by name ascending and reversing equals sorting
by name descending. -/
theorem C9_sortRoundTrip (rs : List ARec)
    (h : rs.Pairwise (fun a b => localeCmp (jsToLower a.name) (jsToLower b.name) ≠ 0)) :
    (sortStage "name" "asc" rs).reverse = sortStage "name" "desc" rs := by
  have hstage_asc : sortStage "name" "asc" rs = stableSortBy (recCompare "name" "asc") rs := by
    simp [sortStage]
  have hstage_desc : sortStage "name" "desc" rs = stableSortBy (recCompare "name" "desc") rs := by
    simp [sortStage]
  rw [hstage_asc, hstage_desc]
  have hantiA : ∀ a b : ARec, recCompare "name" "asc" a b = -(recCompare "name" "asc" b a) := by
    intro a b
    rw [recCompare_name_asc, recCompare_name_asc]
    exact localeCmp_anti _ _
  have htransA : ∀ a b d : ARec, recCompare "name" "asc" a b ≤ 0 →
      recCompare "name" "asc" b d ≤ 0 → recCompare "name" "asc" a d ≤ 0 := by
    intro a b d
    rw [recCompare_name_asc, recCompare_name_asc, recCompare_name_asc]
    exact localeCmp_trans_le _ _ _
  have hantiD : ∀ a b : ARec, recCompare "name" "desc" a b = -(recCompare "name" "desc" b a) := by
    intro a b
    rw [recCompare_name_desc, recCompare_name_desc]
    have := localeCmp_anti (jsToLower a.name) (jsToLower b.name)
    omega
  have htransD : ∀ a b d : ARec, recCompare "name" "desc" a b ≤ 0 →
      recCompare "name" "desc" b d ≤ 0 → recCompare "name" "desc" a d ≤ 0 := by
    intro a b d
    rw [recCompare_name_desc, recCompare_name_desc, recCompare_name_desc]
    intro h1 h2
    have hba : localeCmp (jsToLower b.name) (jsToLower a.name) ≤ 0 := by
      have := localeCmp_anti (jsToLower a.name) (jsToLower b.name)
      omega
    have hdb : localeCmp (jsToLower d.name) (jsToLower b.name) ≤ 0 := by
      have := localeCmp_anti (jsToLower b.name) (jsToLower d.name)
      omega
    have hda := localeCmp_trans_le _ _ _ hdb hba
    have := localeCmp_anti (jsToLower a.name) (jsToLower d.name)
    omega
  have hsym : ∀ {x y : ARec},
      (fun a b : ARec => localeCmp (jsToLower a.name) (jsToLower b.name) ≠ 0) x y →
      (fun a b : ARec => localeCmp (jsToLower a.name) (jsToLower b.name) ≠ 0) y x := by
    intro x y hxy
    show localeCmp (jsToLower y.name) (jsToLower x.name) ≠ 0
    have := localeCmp_anti (jsToLower x.name) (jsToLower y.name)
    simp only [ne_eq] at hxy
    omega
  have hpermA : (stableSortBy (recCompare "name" "asc") rs).Perm rs :=
    stableSortBy_perm _ rs
  have hpermD : (stableSortBy (recCompare "name" "desc") rs).Perm rs :=
    stableSortBy_perm _ rs
  have hsortedA := stableSortBy_sorted (recCompare "name" "asc") hantiA htransA rs
  have hsortedD := stableSortBy_sorted (recCompare "name" "desc") hantiD htransD rs
  have hneA : (stableSortBy (recCompare "name" "asc") rs).Pairwise
      (fun a b => localeCmp (jsToLower a.name) (jsToLower b.name) ≠ 0) :=
    (hpermA.pairwise_iff hsym).mpr h
  have hneD : (stableSortBy (recCompare "name" "desc") rs).Pairwise
      (fun a b => localeCmp (jsToLower a.name) (jsToLower b.name) ≠ 0) :=
    (hpermD.pairwise_iff hsym).mpr h
  have hstrictD : (stableSortBy (recCompare "name" "desc") rs).Pairwise
      (fun a b => recCompare "name" "desc" a b < 0) := by
    refine (hsortedD.and hneD).imp ?_
    intro a b hab
    obtain ⟨h1, h2⟩ := hab
    rw [recCompare_name_desc] at h1 ⊢
    omega
  have hstrictRevA : (stableSortBy (recCompare "name" "asc") rs).reverse.Pairwise
      (fun a b => recCompare "name" "desc" a b < 0) := by
    rw [List.pairwise_reverse]
    refine (hsortedA.and hneA).imp ?_
    intro a b hab
    obtain ⟨h1, h2⟩ := hab
    show recCompare "name" "desc" b a < 0
    rw [recCompare_name_desc]
    rw [recCompare_name_asc] at h1
    have := localeCmp_anti (jsToLower a.name) (jsToLower b.name)
    simp only [ne_eq] at h2
    omega
  have hasym : ∀ a b : ARec, recCompare "name" "desc" a b < 0 →
      ¬ recCompare "name" "desc" b a < 0 := by
    intro a b h1 h2
    have := hantiD a b
    omega
  have hperm : ((stableSortBy (recCompare "name" "asc") rs).reverse).Perm
      (stableSortBy (recCompare "name" "desc") rs) :=
    ((List.reverse_perm _).trans hpermA).trans hpermD.symm
  exact perm_pairwise_asym_eq hasym _ _ hperm hstrictRevA hstrictD

/-- Witness for C9 at a concrete input: three records whose lower-cased names
collate pairwise differently under the Turkish ordering. -/
theorem C9_sortRoundTrip_witness :
    ((annotate [mkRec 1 "Çilek" "1 kg", mkRec 2 "Armut" "2 kg", mkRec 3 "elma" "3 kg"]).Pairwise
      (fun a b => localeCmp (jsToLower a.name) (jsToLower b.name) ≠ 0)) ∧
    (sortStage "name" "asc"
        (annotate [mkRec 1 "Çilek" "1 kg", mkRec 2 "Armut" "2 kg", mkRec 3 "elma" "3 kg"])).reverse
      = sortStage "name" "desc"
          (annotate [mkRec 1 "Çilek" "1 kg", mkRec 2 "Armut" "2 kg", mkRec 3 "elma" "3 kg"]) :=
  ⟨by decide,
    C9_sortRoundTrip
      (annotate [mkRec 1 "Çilek" "1 kg", mkRec 2 "Armut" "2 kg", mkRec 3 "elma" "3 kg"])
      (by decide)⟩

end Dashboard
